import Mathlib

/-!
# Verification of the `drmkpi` RCU engine (`src/drmkpi/drmkpi_rcu.c`)

This file gives a shallow embedding of the epoch-based RCU engine in
`src/drmkpi/drmkpi_rcu.c` and proves/refutes the specification's claims
about it.

The embedding is split into cooperating models, all sharing the constants
of the source:

* a *reader/grace-period trace model* (`St`, `Ev`, `step`, `run`) covering
  `drmkpi_rcu_read_lock`, `drmkpi_rcu_read_unlock` and the call/return of
  `drmkpi_synchronize_rcu` as interleaved events of many threads;
* a *callback-queue trace model* (`QState`, `QEv`, `qstep`, `qrun`)
  covering `drmkpi_call_rcu`, the deferred cleaner task
  `linux_rcu_cleaner_func` and `drmkpi_rcu_barrier`;
* a *scheduler-state model* (`Td`) covering the save/restore logic of
  `drmkpi_synchronize_rcu` and the per-record wait callback
  `linux_synchronize_rcu_cb`;
* the sleepable (`srcu`) wrappers.

External collaborators of the engine (the `ck_epoch` primitive, the
FreeBSD scheduler and taskqueue primitives) are not part of the source
tree; they are modelled from the specification's description of their
interfaces, as flagged on each definition.
-/

namespace Drmkpi

/-! ## Constants of the data model -/

/-- Modelled from the spec: `RCU_TYPE_MAX` comes from `drmkpi/rcupdate.h`,
which is not in the source tree.  The spec fixes the set of RCU types to
the two domains `{ normal, sleepable }`. -/
def RCU_TYPE_MAX : Nat := 2

/-- Modelled from the spec: `RCU_TYPE_SLEEPABLE` comes from
`drmkpi/rcupdate.h`, which is not in the source tree.  It is the distinct
type tag of the sleepable domain (the normal domain has tag 0). -/
def RCU_TYPE_SLEEPABLE : Nat := 1

/-- Modelled from the spec: `LINUX_KFREE_RCU_OFFSET_MAX` comes from the
KPI headers, which are not in the source tree.  It is the "kfree offset
limit" threshold of the dual encoding of callback references; the theorems
below do not depend on its exact value. -/
def LINUX_KFREE_RCU_OFFSET_MAX : Nat := 4096

/-! ## Pointwise function update helpers -/

/-- Update a one-argument map at a single point. -/
def fupd {α : Type} (f : Nat → α) (x : Nat) (v : α) : Nat → α :=
  fun y => if y = x then v else f y

/-- Update a two-argument map at a single point. -/
def fupd2 {α : Type} (f : Nat → Nat → α) (x y : Nat) (v : α) : Nat → Nat → α :=
  fun a b => if a = x ∧ b = y then v else f a b

/-! ## Reader-side state

`St` collects the engine state that `drmkpi_rcu_read_lock` /
`drmkpi_rcu_read_unlock` touch, indexed by thread id, RCU type and CPU id:

* `recurse t ty` is `ts->rcu_recurse[type]` of thread `t` (a C `int`,
  hence `Int`: the source decrements it without any underflow check);
* `registry ty c` is the reader registry `record->ts_head` of the per-CPU
  record `DPCPU_ID_GET(c, linux_epoch_record[ty])`, in TAILQ order
  (`TAILQ_INSERT_TAIL` appends at the right);
* `pinned t` is `td_pinned` of the thread (`sched_pin`/`sched_unpin`);
* `cpu t` is the CPU the thread is currently running on;
* `syncing w` is the bookkeeping of a grace-period wait in progress by
  thread `w`: the type it synchronizes on and the readers it still waits
  for.  Modelled from the spec: `ck_epoch_synchronize_wait` is external;
  per spec §3 the engine treats it abstractly as "readers mark themselves
  active against a snapshot; a synchronizer waits until every record
  either advanced past that snapshot or released its activity mark", i.e.
  the wait returns only once every reader of its snapshot has ended its
  critical section. -/
structure St where
  cpu : Nat → Nat
  pinned : Nat → Int
  recurse : Nat → Nat → Int
  registry : Nat → Nat → List Nat
  syncing : Nat → Option (Nat × List Nat)

/-- The body of `drmkpi_rcu_read_lock` (after the `MPASS` and `RCU_SKIP`
checks), executed by thread `t` on its current CPU: `sched_pin()`;
`ck_epoch_begin`; `ts->rcu_recurse[type]++`; on the 0→1 transition
`TAILQ_INSERT_TAIL(&record->ts_head, ts, rcu_entry[type])`. -/
def lockEff (s : St) (t ty : Nat) : St :=
  let c := s.cpu t
  let d := s.recurse t ty + 1
  { s with
    pinned := fupd s.pinned t (s.pinned t + 1),
    recurse := fupd2 s.recurse t ty d,
    registry :=
      if d = 1 then fupd2 s.registry ty c (s.registry ty c ++ [t]) else s.registry }

/-- The body of `drmkpi_rcu_read_unlock` (after the `MPASS` and `RCU_SKIP`
checks), executed by thread `t` on its current CPU: `ck_epoch_end`;
`ts->rcu_recurse[type]--`; on reaching 0,
`TAILQ_REMOVE(&record->ts_head, ts, rcu_entry[type])`; `sched_unpin()`.
A reader whose depth reaches 0 has ended its critical section; the
(spec-modelled) epoch primitive then stops counting it against any
in-flight grace period, which is recorded by erasing it from every
matching `syncing` snapshot. -/
def unlockEff (s : St) (t ty : Nat) : St :=
  let c := s.cpu t
  let d := s.recurse t ty - 1
  { s with
    pinned := fupd s.pinned t (s.pinned t - 1),
    recurse := fupd2 s.recurse t ty d,
    registry :=
      if d = 0 then fupd2 s.registry ty c ((s.registry ty c).erase t) else s.registry,
    syncing :=
      if d = 0 then
        fun w =>
          match s.syncing w with
          | some (ty', snap) => if ty' = ty then some (ty', snap.erase t) else some (ty', snap)
          | none => none
      else s.syncing }

/-- `drmkpi_rcu_read_lock(type)` run by thread `t`: `MPASS(type <
RCU_TYPE_MAX)` (a failed assertion is `none`), then the `RCU_SKIP()` early
return, then the locked effect.  `skip` is the value of `RCU_SKIP()`. -/
def drmkpi_rcu_read_lock (skip : Bool) (ty t : Nat) (s : St) : Option St :=
  if RCU_TYPE_MAX ≤ ty then none
  else if skip then some s
  else some (lockEff s t ty)

/-- `drmkpi_rcu_read_unlock(type)` run by thread `t`: `MPASS(type <
RCU_TYPE_MAX)`, then the `RCU_SKIP()` early return, then the unlock
effect.  Note the source performs no recursion-depth check: the decrement
is unconditional. -/
def drmkpi_rcu_read_unlock (skip : Bool) (ty t : Nat) (s : St) : Option St :=
  if RCU_TYPE_MAX ≤ ty then none
  else if skip then some s
  else some (unlockEff s t ty)

/-! ## Reader/grace-period trace semantics -/

/-- Events of the reader-side trace model (normal operation,
`RCU_SKIP() = false`):

* `lock t ty` / `unlock t ty`: thread `t` runs
  `drmkpi_rcu_read_lock`/`drmkpi_rcu_read_unlock` for `ty`;
* `migrate t c`: the scheduler moves thread `t` to CPU `c` (only legal
  while `t` is not pinned);
* `syncCall w ty snap`: thread `w` enters `drmkpi_synchronize_rcu(ty)`
  and the (spec-modelled) epoch primitive snapshots `snap` as the readers
  whose departure it will wait for;
* `syncRet w`: `ck_epoch_synchronize_wait` reports completion and
  `drmkpi_synchronize_rcu` returns to `w`. -/
inductive Ev where
  | lock : Nat → Nat → Ev
  | unlock : Nat → Nat → Ev
  | migrate : Nat → Nat → Ev
  | syncCall : Nat → Nat → List Nat → Ev
  | syncRet : Nat → Ev
deriving DecidableEq, Repr

/-- One step of the trace semantics.  The `unlock` step additionally
requires a positive recursion depth: it restricts traces to the legal
call sequences of spec §4.1 (every `end` matches a `begin`); an
unbalanced `end` is undefined behaviour in the C source (it later runs
`TAILQ_REMOVE` on an element that is on no list) and is analysed
separately, by `unlockEff` directly.  `syncRet` is enabled only once the
waiter's snapshot has been emptied, which is the spec-modelled guarantee
of `ck_epoch_synchronize_wait`. -/
def step (s : St) : Ev → Option St
  | .lock t ty => drmkpi_rcu_read_lock false ty t s
  | .unlock t ty =>
      if 0 < s.recurse t ty then drmkpi_rcu_read_unlock false ty t s else none
  | .migrate t c =>
      if s.pinned t = 0 then some { s with cpu := fupd s.cpu t c } else none
  | .syncCall w ty snap =>
      if RCU_TYPE_MAX ≤ ty then none
      else
        match s.syncing w with
        | none => some { s with syncing := fupd s.syncing w (some (ty, snap)) }
        | some _ => none
  | .syncRet w =>
      match s.syncing w with
      | some (_, []) => some { s with syncing := fupd s.syncing w none }
      | _ => none

/-- Run a list of events from a state; `none` if any step is refused. -/
def run (s : St) : List Ev → Option St
  | [] => some s
  | e :: es =>
      match step s e with
      | some s' => run s' es
      | none => none

/-- The state set up by `linux_rcu_runtime_init`: empty registries, no
reader depth, nobody pinned or waiting. -/
def initSt : St :=
  { cpu := fun _ => 0
    pinned := fun _ => 0
    recurse := fun _ _ => 0
    registry := fun _ _ => []
    syncing := fun _ => none }

/-- Execution of a trace from the freshly initialized engine. -/
def exec (es : List Ev) : Option St :=
  run initSt es

/-- The combined reader-side invariant of the engine (spec §3 "Per-CPU
Record" and "Thread Reader State" and §8): depths are non-negative and
zero outside the valid types, `td_pinned` counts the open critical
sections, and a thread is linked into a registry exactly when its depth
is positive, on its own CPU only, at most once. -/
def StInv (s : St) : Prop :=
  (∀ t ty, 0 ≤ s.recurse t ty) ∧
  (∀ t ty, RCU_TYPE_MAX ≤ ty → s.recurse t ty = 0) ∧
  (∀ t, s.pinned t = s.recurse t 0 + s.recurse t 1) ∧
  (∀ t ty, 0 < s.recurse t ty ↔ ∃ c, t ∈ s.registry ty c) ∧
  (∀ t ty c, t ∈ s.registry ty c → c = s.cpu t) ∧
  (∀ t ty c, (s.registry ty c).count t ≤ 1)

/-! ## Callback queue and deferred dispatcher -/

/-- A `struct callback_head` as it sits in the per-type queue: the node's
address (`addr`, C pointer arithmetic happens on it) and the numeric
value of its `func` field (`(uintptr_t)rcu->func`). -/
structure Node where
  addr : Int
  func : Nat
deriving DecidableEq, Repr

/-- What the dispatcher does with one node (spec §3 "Callback Node"):
either `kfree` of a computed address or invocation of a function on the
node. -/
inductive Action where
  | kfree : Int → Action
  | invoke : Nat → Int → Action
deriving DecidableEq, Repr

/-- The dispatch loop of `linux_rcu_cleaner_func` (the `while` over the
spliced `tmp_head`): for each node, `offset = (uintptr_t)rcu->func`; if
`offset < LINUX_KFREE_RCU_OFFSET_MAX` then `kfree((char *)rcu - offset)`
else `rcu->func((struct rcu_head *)rcu)`. -/
def linux_rcu_cleaner_dispatch : List Node → List Action
  | [] => []
  | rcu :: rest =>
      (if rcu.func < LINUX_KFREE_RCU_OFFSET_MAX then
        Action.kfree (rcu.addr - (rcu.func : Int))
      else Action.invoke rcu.func rcu.addr) :: linux_rcu_cleaner_dispatch rest

/-- The action taken for a single dispatched node (one iteration of the
loop above). -/
def dispatchOne (rcu : Node) : Action :=
  if rcu.func < LINUX_KFREE_RCU_OFFSET_MAX then Action.kfree (rcu.addr - (rcu.func : Int))
  else Action.invoke rcu.func rcu.addr

/-- Dispatcher-side state, per RCU type:

* `cb_head ty` is `linux_epoch_head[ty].cb_head` (STAILQ, FIFO, tail
  insertion);
* `taskQueued ty` is whether `head->task` is pending on
  `taskqueue_fast` (modelled from the spec: the deferred-task primitive
  is the host kernel's);
* `taskRunning ty` is `some batch` while a cleaner run for `ty` has
  spliced `batch` out of the queue and has not yet finished;
* `exec_log ty` is the list of actions the dispatcher has performed, in
  order. -/
structure QState where
  cb_head : Nat → List Node
  taskQueued : Nat → Bool
  taskRunning : Nat → Option (List Node)
  exec_log : Nat → List Action

/-- `drmkpi_call_rcu(type, context, func)`: `MPASS(type < RCU_TYPE_MAX)`;
`rcu->func = func`; `STAILQ_INSERT_TAIL(&head->cb_head, rcu, entry)`;
`taskqueue_enqueue(taskqueue_fast, &head->task)` — all under
`head->lock`.  The source performs no `RCU_SKIP()` check: `skip` (the
ambient `RCU_SKIP()` value) is a parameter only so that claims about the
skip mode can be stated; the function never consults it. -/
def drmkpi_call_rcu (skip : Bool) (ty : Nat) (addr : Int) (func : Nat) (s : QState) :
    Option QState :=
  if RCU_TYPE_MAX ≤ ty then none
  else
    some { s with
      cb_head := fupd s.cb_head ty (s.cb_head ty ++ [⟨addr, func⟩]),
      taskQueued := fupd s.taskQueued ty true }

/-- Events of the dispatcher trace model:

* `enq ty n`: some writer runs `drmkpi_call_rcu(ty, n.addr, n.func)`;
* `taskStart ty`: the taskqueue begins a run of
  `linux_rcu_cleaner_func` for `ty`: it clears the pending bit and the
  function splices the whole queue into its private `tmp_head` under
  `head->lock` (then calls `drmkpi_synchronize_rcu(ty)`, invisible at
  this level of the model);
* `taskEnd ty`: the run finishes after dispatching the spliced batch in
  FIFO order;
* `barrierCall b ty` / `barrierRet b ty`: thread `b` enters/leaves
  `drmkpi_rcu_barrier(ty)`; the return is the completion of
  `taskqueue_drain(taskqueue_fast, &head->task)`, which (modelled from
  the spec: host deferred-task primitive) blocks until the task is
  neither pending nor running. -/
inductive QEv where
  | enq : Nat → Node → QEv
  | taskStart : Nat → QEv
  | taskEnd : Nat → QEv
  | barrierCall : Nat → Nat → QEv
  | barrierRet : Nat → Nat → QEv
deriving DecidableEq, Repr

/-- The batch currently being dispatched for `ty`, if any. -/
def runningList (s : QState) (ty : Nat) : List Node :=
  (s.taskRunning ty).getD []

/-- One step of the dispatcher trace semantics. -/
def qstep (s : QState) : QEv → Option QState
  | .enq ty n => drmkpi_call_rcu false ty n.addr n.func s
  | .taskStart ty =>
      if s.taskQueued ty = true ∧ s.taskRunning ty = none then
        some { s with
          taskQueued := fupd s.taskQueued ty false,
          taskRunning := fupd s.taskRunning ty (some (s.cb_head ty)),
          cb_head := fupd s.cb_head ty [] }
      else none
  | .taskEnd ty =>
      match s.taskRunning ty with
      | some batch =>
          some { s with
            exec_log := fupd s.exec_log ty (s.exec_log ty ++ linux_rcu_cleaner_dispatch batch),
            taskRunning := fupd s.taskRunning ty none }
      | none => none
  | .barrierCall _ ty => if RCU_TYPE_MAX ≤ ty then none else some s
  | .barrierRet _ ty =>
      if s.taskQueued ty = false ∧ s.taskRunning ty = none then some s else none

/-- Run a list of dispatcher events. -/
def qrun (s : QState) : List QEv → Option QState
  | [] => some s
  | e :: es =>
      match qstep s e with
      | some s' => qrun s' es
      | none => none

/-- The dispatcher state after `linux_rcu_runtime_init`. -/
def qinit : QState :=
  { cb_head := fun _ => []
    taskQueued := fun _ => false
    taskRunning := fun _ => none
    exec_log := fun _ => [] }

/-- Execution of a dispatcher trace from the initial state. -/
def qexec (es : List QEv) : Option QState :=
  qrun qinit es

/-- The nodes enqueued for type `ty` in a trace, in order. -/
def enqList (ty : Nat) : List QEv → List Node
  | [] => []
  | .enq ty' n :: es => if ty' = ty then n :: enqList ty es else enqList ty es
  | _ :: es => enqList ty es

/-- All dispatch work of a type, in order: performed actions, then the
batch in flight, then the still-queued nodes. -/
def qsig (ty : Nat) (s : QState) : List Action :=
  s.exec_log ty ++ linux_rcu_cleaner_dispatch (runningList s ty) ++
    linux_rcu_cleaner_dispatch (s.cb_head ty)

/-! ## Scheduler-state model of the grace-period waiter -/

/-- The scheduler-visible state of the synchronizing thread: `td_priority`
(`u_char`), `td_pinned` (C `int`), the CPU the thread is bound to via
`sched_bind` (if any), and the CPU it currently runs on (`PCPU_GET(cpuid)`
as seen by the thread). -/
structure Td where
  td_priority : Nat
  td_pinned : Int
  td_bound : Option Nat
  onCpu : Nat
deriving DecidableEq, Repr

/-- Modelled from the spec: host scheduler primitive `sched_prio` (spec
§6 "Priority get/set on threads"). -/
def sched_prio (td : Td) (p : Nat) : Td :=
  { td with td_priority := p }

/-- Modelled from the spec: host scheduler primitive `sched_unbind`
(spec §6 "CPU binding (bind/unbind to a specific CPU)").  In the host
kernel, unbinding a bound thread also drops the pin the binding took. -/
def sched_unbind (td : Td) : Td :=
  if td.td_bound.isSome then { td with td_bound := none, td_pinned := td.td_pinned - 1 }
  else td

/-- Modelled from the spec: host scheduler primitive `sched_bind`.  It
rebinds (releasing a previous binding first), pins the thread to the
target CPU and migrates it there. -/
def sched_bind (td : Td) (cpu : Nat) : Td :=
  let td' := sched_unbind td
  { td' with td_bound := some cpu, td_pinned := td'.td_pinned + 1, onCpu := cpu }

/-- `sched_is_bound`. -/
def sched_is_bound (td : Td) : Bool :=
  td.td_bound.isSome

/-- A `struct task_struct` on a record's `ts_head` as inspected by
`linux_synchronize_rcu_cb`: its thread's `td_priority` and
`td_inhibitors`. -/
structure ReaderView where
  td_priority : Nat
  td_inhibitors : Nat
deriving DecidableEq, Repr

/-- A `struct linux_epoch_record` as passed to the per-record wait
callback: its `cpuid` and the readers on its `ts_head`. -/
structure EpochRec where
  cpuid : Nat
  readers : List ReaderView
deriving DecidableEq, Repr

/-- The scheduler actions the wait callback can perform, in program
order.  `switchVol` is `mi_switch(SW_VOL | SWT_RELINQUISH)`; it releases
the thread lock before returning.  `pause n` is `pause("W", n)` (`n`
scheduler ticks), entered after an explicit `thread_unlock`. -/
inductive SchedAct where
  | prioSet : Nat → SchedAct
  | switchVol : SchedAct
  | threadLock : SchedAct
  | threadUnlock : SchedAct
  | pause : Nat → SchedAct
  | bind : Nat → SchedAct
deriving DecidableEq, Repr

/-- Whether the thread lock is held after performing a list of actions,
starting from `b`.  `switchVol` drops the lock (the source comments that
`mi_switch()` unlocks the thread lock before returning); `pause` does not
touch it (the callback brackets it with explicit unlock/lock). -/
def lockAfter : Bool → List SchedAct → Bool
  | b, [] => b
  | _, SchedAct.threadLock :: rest => lockAfter true rest
  | _, SchedAct.threadUnlock :: rest => lockAfter false rest
  | _, SchedAct.switchVol :: rest => lockAfter false rest
  | b, SchedAct.prioSet _ :: rest => lockAfter b rest
  | b, SchedAct.pause _ :: rest => lockAfter b rest
  | b, SchedAct.bind _ :: rest => lockAfter b rest

/-- The `TAILQ_FOREACH` scan of `linux_synchronize_rcu_cb`: starting from
`prio = 0` and `is_sleeping = 0`, for each reader
`if (ts->task_thread->td_priority > prio) prio = ...;` and
`is_sleeping |= (ts->task_thread->td_inhibitors != 0)`. -/
def rcu_prio_scan : List ReaderView → Nat → Bool → Nat × Bool
  | [], prio, slp => (prio, slp)
  | ts :: rest, prio, slp =>
      rcu_prio_scan rest (if prio < ts.td_priority then ts.td_priority else prio)
        (slp || (ts.td_inhibitors != 0))

/-- `linux_synchronize_rcu_cb`, the per-record callback the epoch
primitive invokes for every record still holding up the grace period.
Returns the updated thread state and the scheduler actions performed, in
order.  The two same-CPU branches run with the thread lock held on entry
and exit. -/
def linux_synchronize_rcu_cb (record : EpochRec) (td : Td) : Td × List SchedAct :=
  if record.cpuid = td.onCpu then
    let ps := rcu_prio_scan record.readers 0 false
    if ps.2 then
      (td, [SchedAct.threadUnlock, SchedAct.pause 1, SchedAct.threadLock])
    else
      (sched_prio td ps.1, [SchedAct.prioSet ps.1, SchedAct.switchVol, SchedAct.threadLock])
  else
    (sched_bind (sched_prio td 0) record.cpuid,
      [SchedAct.prioSet 0, SchedAct.bind record.cpuid])

/-- Modelled from the spec: `ck_epoch_synchronize_wait` repeatedly
invokes the supplied per-record callback on records whose epoch has not
advanced, until the grace period closes (spec §4.3).  The list `records`
is the (arbitrary) sequence of records the primitive presents to the
callback. -/
def ck_epoch_synchronize_wait (records : List EpochRec) (td : Td) : Td :=
  records.foldl (fun td r => (linux_synchronize_rcu_cb r td).1) td

/-- `drmkpi_synchronize_rcu(type)` as it acts on the caller's scheduler
state: `MPASS(type < RCU_TYPE_MAX)`; the `RCU_SKIP()` early return; save
`old_cpu`, `old_pinned`, `old_prio`, `was_bound`; `sched_unbind`;
`td->td_pinned = 0`; `sched_bind(td, old_cpu)`; the epoch wait; then the
restore sequence of the source (lines 334-347).  The Giant/`WITNESS`
interaction and the thread lock are not represented here. -/
def drmkpi_synchronize_rcu (skip : Bool) (ty : Nat) (records : List EpochRec) (td : Td) :
    Option Td :=
  if RCU_TYPE_MAX ≤ ty then none
  else if skip then some td
  else
    let old_cpu := td.onCpu
    let old_pinned := td.td_pinned
    let old_prio := td.td_priority
    let was_bound := sched_is_bound td
    let td1 := sched_unbind td
    let td2 : Td := { td1 with td_pinned := 0 }
    let td3 := sched_bind td2 old_cpu
    let td4 := ck_epoch_synchronize_wait records td3
    let td5 :=
      if was_bound then sched_bind td4 old_cpu
      else sched_unbind (if old_pinned ≠ 0 then sched_bind td4 old_cpu else td4)
    let td6 : Td := { td5 with td_pinned := old_pinned }
    some (sched_prio td6 old_prio)

/-! ## Sleepable (srcu) wrappers -/

/-- `drmkpi_init_srcu_struct(srcu)`: returns 0, touches nothing. -/
def drmkpi_init_srcu_struct (srcu : Nat) (s : St) : St × Int :=
  (s, 0)

/-- `drmkpi_cleanup_srcu_struct(srcu)`: does nothing. -/
def drmkpi_cleanup_srcu_struct (srcu : Nat) (s : St) : St :=
  s

/-- `drmkpi_srcu_read_lock(srcu)`: forwards to
`drmkpi_rcu_read_lock(RCU_TYPE_SLEEPABLE)` and returns the key 0. -/
def drmkpi_srcu_read_lock (srcu : Nat) (skip : Bool) (t : Nat) (s : St) :
    Option (St × Int) :=
  (drmkpi_rcu_read_lock skip RCU_TYPE_SLEEPABLE t s).map (fun s' => (s', 0))

/-- `drmkpi_srcu_read_unlock(srcu, key)`: the key is `__unused`; forwards
to `drmkpi_rcu_read_unlock(RCU_TYPE_SLEEPABLE)`. -/
def drmkpi_srcu_read_unlock (srcu : Nat) (key : Int) (skip : Bool) (t : Nat) (s : St) :
    Option St :=
  drmkpi_rcu_read_unlock skip RCU_TYPE_SLEEPABLE t s

/-! ## Basic lemmas about the update helpers and effect projections -/

theorem fupd_same {α : Type} (f : Nat → α) (x : Nat) (v : α) : fupd f x v x = v := by
  simp [fupd]

theorem fupd_other {α : Type} (f : Nat → α) {x y : Nat} (v : α) (h : y ≠ x) :
    fupd f x v y = f y := by
  simp [fupd, h]

theorem fupd2_same {α : Type} (f : Nat → Nat → α) (x y : Nat) (v : α) :
    fupd2 f x y v x y = v := by
  simp [fupd2]

theorem fupd2_other {α : Type} (f : Nat → Nat → α) {x y a b : Nat} (v : α)
    (h : ¬(a = x ∧ b = y)) : fupd2 f x y v a b = f a b := by
  simp only [fupd2, if_neg h]

theorem lockEff_cpu (s : St) (t ty : Nat) : (lockEff s t ty).cpu = s.cpu := rfl

theorem lockEff_pinned (s : St) (t ty : Nat) :
    (lockEff s t ty).pinned = fupd s.pinned t (s.pinned t + 1) := rfl

theorem lockEff_recurse (s : St) (t ty : Nat) :
    (lockEff s t ty).recurse = fupd2 s.recurse t ty (s.recurse t ty + 1) := rfl

theorem lockEff_registry (s : St) (t ty : Nat) :
    (lockEff s t ty).registry =
      if s.recurse t ty + 1 = 1 then
        fupd2 s.registry ty (s.cpu t) (s.registry ty (s.cpu t) ++ [t])
      else s.registry := rfl

theorem lockEff_syncing (s : St) (t ty : Nat) : (lockEff s t ty).syncing = s.syncing := rfl

theorem unlockEff_cpu (s : St) (t ty : Nat) : (unlockEff s t ty).cpu = s.cpu := rfl

theorem unlockEff_pinned (s : St) (t ty : Nat) :
    (unlockEff s t ty).pinned = fupd s.pinned t (s.pinned t - 1) := rfl

theorem unlockEff_recurse (s : St) (t ty : Nat) :
    (unlockEff s t ty).recurse = fupd2 s.recurse t ty (s.recurse t ty - 1) := rfl

theorem unlockEff_registry (s : St) (t ty : Nat) :
    (unlockEff s t ty).registry =
      if s.recurse t ty - 1 = 0 then
        fupd2 s.registry ty (s.cpu t) ((s.registry ty (s.cpu t)).erase t)
      else s.registry := rfl

theorem unlockEff_syncing (s : St) (t ty : Nat) :
    (unlockEff s t ty).syncing =
      if s.recurse t ty - 1 = 0 then
        fun w =>
          match s.syncing w with
          | some (ty', snap) => if ty' = ty then some (ty', snap.erase t) else some (ty', snap)
          | none => none
      else s.syncing := rfl

/-! ## Dispatch loop lemmas -/

theorem cleaner_dispatch_eq_map (l : List Node) :
    linux_rcu_cleaner_dispatch l = l.map dispatchOne := by
  induction l with
  | nil => rfl
  | cons a l ih => simp [linux_rcu_cleaner_dispatch, dispatchOne, ih]

theorem cleaner_dispatch_append (a b : List Node) :
    linux_rcu_cleaner_dispatch (a ++ b) =
      linux_rcu_cleaner_dispatch a ++ linux_rcu_cleaner_dispatch b := by
  simp [cleaner_dispatch_eq_map]

theorem mem_cleaner_dispatch {rcu : Node} {l : List Node} (h : rcu ∈ l) :
    dispatchOne rcu ∈ linux_rcu_cleaner_dispatch l := by
  rw [cleaner_dispatch_eq_map]
  exact List.mem_map_of_mem _ h

/-- C5: for every node dispatched by the drain task, a function value
below `LINUX_KFREE_RCU_OFFSET_MAX` is treated as a byte offset `o` and
the dispatcher frees the object at `node − o`; a value at or above the
threshold is invoked as a function on the node itself. -/
theorem cleaner_dispatch_dual_encoding (batch : List Node) (rcu : Node) (h : rcu ∈ batch) :
    (rcu.func < LINUX_KFREE_RCU_OFFSET_MAX →
      dispatchOne rcu = Action.kfree (rcu.addr - (rcu.func : Int)) ∧
      Action.kfree (rcu.addr - (rcu.func : Int)) ∈ linux_rcu_cleaner_dispatch batch) ∧
    (LINUX_KFREE_RCU_OFFSET_MAX ≤ rcu.func →
      dispatchOne rcu = Action.invoke rcu.func rcu.addr ∧
      Action.invoke rcu.func rcu.addr ∈ linux_rcu_cleaner_dispatch batch) := by
  constructor
  · intro hlt
    have hd : dispatchOne rcu = Action.kfree (rcu.addr - (rcu.func : Int)) := by
      simp [dispatchOne, hlt]
    exact ⟨hd, hd ▸ mem_cleaner_dispatch h⟩
  · intro hge
    have hd : dispatchOne rcu = Action.invoke rcu.func rcu.addr := by
      simp [dispatchOne, Nat.not_lt.mpr hge]
    exact ⟨hd, hd ▸ mem_cleaner_dispatch h⟩

/-- Witness for `cleaner_dispatch_dual_encoding` at a concrete batch. -/
theorem cleaner_dispatch_dual_encoding_witness :
    ((8 : Nat) < LINUX_KFREE_RCU_OFFSET_MAX →
      dispatchOne ⟨100, 8⟩ = Action.kfree (92 : Int) ∧
      Action.kfree (92 : Int) ∈ linux_rcu_cleaner_dispatch [⟨100, 8⟩, ⟨200, 9000⟩]) ∧
    (LINUX_KFREE_RCU_OFFSET_MAX ≤ (8 : Nat) →
      dispatchOne ⟨100, 8⟩ = Action.invoke 8 100 ∧
      Action.invoke 8 100 ∈ linux_rcu_cleaner_dispatch [⟨100, 8⟩, ⟨200, 9000⟩]) := by
  have h := cleaner_dispatch_dual_encoding [⟨100, 8⟩, ⟨200, 9000⟩] ⟨100, 8⟩ (by simp)
  simpa using h

/-- C10: the sleepable-variant entry points ignore the srcu handle (and
the key, for unlock) and forward to the engine under
`RCU_TYPE_SLEEPABLE`; `drmkpi_init_srcu_struct` returns 0,
`drmkpi_cleanup_srcu_struct` does nothing, `drmkpi_srcu_read_lock`
returns the key 0. -/
theorem srcu_forwards_and_ignores_handle (srcu srcu2 : Nat) (key key2 : Int)
    (skip : Bool) (t : Nat) (s : St) :
    drmkpi_init_srcu_struct srcu s = (s, 0) ∧
    drmkpi_cleanup_srcu_struct srcu s = s ∧
    drmkpi_srcu_read_lock srcu skip t s =
      (drmkpi_rcu_read_lock skip RCU_TYPE_SLEEPABLE t s).map (fun s' => (s', 0)) ∧
    drmkpi_srcu_read_lock srcu skip t s = drmkpi_srcu_read_lock srcu2 skip t s ∧
    (∀ r, drmkpi_srcu_read_lock srcu skip t s = some r → r.2 = 0) ∧
    drmkpi_srcu_read_unlock srcu key skip t s =
      drmkpi_rcu_read_unlock skip RCU_TYPE_SLEEPABLE t s ∧
    drmkpi_srcu_read_unlock srcu key skip t s =
      drmkpi_srcu_read_unlock srcu2 key2 skip t s := by
  refine ⟨rfl, rfl, rfl, rfl, ?_, rfl, rfl⟩
  intro r hr
  unfold drmkpi_srcu_read_lock at hr
  cases h : drmkpi_rcu_read_lock skip RCU_TYPE_SLEEPABLE t s with
  | none => rw [h] at hr; cases hr
  | some s' => rw [h] at hr; cases hr; rfl

/-- Witness for `srcu_forwards_and_ignores_handle` at concrete handles
and keys. -/
theorem srcu_forwards_and_ignores_handle_witness :
    drmkpi_init_srcu_struct 3 initSt = (initSt, 0) ∧
    drmkpi_cleanup_srcu_struct 3 initSt = initSt ∧
    drmkpi_srcu_read_lock 3 false 0 initSt =
      (drmkpi_rcu_read_lock false RCU_TYPE_SLEEPABLE 0 initSt).map (fun s' => (s', 0)) ∧
    drmkpi_srcu_read_lock 3 false 0 initSt = drmkpi_srcu_read_lock 4 false 0 initSt ∧
    (∀ r, drmkpi_srcu_read_lock 3 false 0 initSt = some r → r.2 = 0) ∧
    drmkpi_srcu_read_unlock 3 7 false 0 initSt =
      drmkpi_rcu_read_unlock false RCU_TYPE_SLEEPABLE 0 initSt ∧
    drmkpi_srcu_read_unlock 3 7 false 0 initSt = drmkpi_srcu_read_unlock 4 8 false 0 initSt :=
  srcu_forwards_and_ignores_handle 3 4 7 8 false 0 initSt

/-! ## Lemmas about the waiter callback scan and the scheduler model -/

theorem rcu_prio_scan_snd (l : List ReaderView) (p : Nat) (b : Bool) :
    (rcu_prio_scan l p b).2 = (b || l.any fun r => r.td_inhibitors != 0) := by
  induction l generalizing p b with
  | nil => simp [rcu_prio_scan]
  | cons a l ih => simp [rcu_prio_scan, ih, Bool.or_assoc]

theorem rcu_prio_scan_fst_ge (l : List ReaderView) (p : Nat) (b : Bool) :
    p ≤ (rcu_prio_scan l p b).1 ∧ ∀ r ∈ l, r.td_priority ≤ (rcu_prio_scan l p b).1 := by
  induction l generalizing p b with
  | nil => simp [rcu_prio_scan]
  | cons a l ih =>
    have h := ih (if p < a.td_priority then a.td_priority else p) (b || (a.td_inhibitors != 0))
    refine ⟨?_, ?_⟩
    · refine le_trans ?_ h.1
      split <;> omega
    · intro r hr
      rcases List.mem_cons.mp hr with rfl | hr
      · refine le_trans ?_ h.1
        split <;> omega
      · exact h.2 r hr

theorem rcu_prio_scan_fst_mem (l : List ReaderView) (p : Nat) (b : Bool) :
    (rcu_prio_scan l p b).1 = p ∨ ∃ r ∈ l, (rcu_prio_scan l p b).1 = r.td_priority := by
  induction l generalizing p b with
  | nil => simp [rcu_prio_scan]
  | cons a l ih =>
    rcases ih (if p < a.td_priority then a.td_priority else p) (b || (a.td_inhibitors != 0)) with
      h | ⟨r, hr, h⟩
    · rw [rcu_prio_scan, h]
      split
      · exact Or.inr ⟨a, List.mem_cons_self a l, rfl⟩
      · exact Or.inl rfl
    · exact Or.inr ⟨r, List.mem_cons_of_mem a hr, by rw [rcu_prio_scan, h]⟩

theorem sched_bind_td_bound (td : Td) (c : Nat) : (sched_bind td c).td_bound = some c := rfl

theorem sched_bind_onCpu (td : Td) (c : Nat) : (sched_bind td c).onCpu = c := rfl

theorem sched_bind_td_priority (td : Td) (c : Nat) :
    (sched_bind td c).td_priority = td.td_priority := by
  unfold sched_bind sched_unbind
  split <;> rfl

theorem sched_unbind_td_bound (td : Td) : (sched_unbind td).td_bound = none := by
  unfold sched_unbind
  cases h : td.td_bound <;> simp [h]

theorem sched_unbind_td_priority (td : Td) :
    (sched_unbind td).td_priority = td.td_priority := by
  unfold sched_unbind
  split <;> rfl

/-- C9: the per-record wait callback.  On the blocking CPU itself: if any
pinned reader of the record is sleeping (inhibited), the waiter drops the
thread lock, pauses for one scheduler tick and relocks; otherwise it sets
its own priority to the maximum of the pinned readers' priorities and
voluntarily yields (`mi_switch`), which drops the thread lock across the
switch, relocking afterwards.  On a different CPU it sets priority 0
(highest) and rebinds itself to the blocking CPU. -/
theorem synchronize_cb_policy (record : EpochRec) (td : Td) :
    (record.cpuid = td.onCpu →
      ((record.readers.any fun r => r.td_inhibitors != 0) = true →
        linux_synchronize_rcu_cb record td =
          (td, [SchedAct.threadUnlock, SchedAct.pause 1, SchedAct.threadLock]) ∧
        lockAfter true [SchedAct.threadUnlock, SchedAct.pause 1] = false ∧
        lockAfter true [SchedAct.threadUnlock, SchedAct.pause 1, SchedAct.threadLock] = true) ∧
      ((record.readers.any fun r => r.td_inhibitors != 0) = false →
        ∃ m, linux_synchronize_rcu_cb record td =
            (sched_prio td m, [SchedAct.prioSet m, SchedAct.switchVol, SchedAct.threadLock]) ∧
          (∀ r ∈ record.readers, r.td_priority ≤ m) ∧
          (m = 0 ∨ ∃ r ∈ record.readers, m = r.td_priority) ∧
          lockAfter true [SchedAct.prioSet m, SchedAct.switchVol] = false ∧
          lockAfter true [SchedAct.prioSet m, SchedAct.switchVol, SchedAct.threadLock] = true)) ∧
    (record.cpuid ≠ td.onCpu →
      linux_synchronize_rcu_cb record td =
        (sched_bind (sched_prio td 0) record.cpuid,
          [SchedAct.prioSet 0, SchedAct.bind record.cpuid]) ∧
      (linux_synchronize_rcu_cb record td).1.td_priority = 0 ∧
      (linux_synchronize_rcu_cb record td).1.td_bound = some record.cpuid ∧
      (linux_synchronize_rcu_cb record td).1.onCpu = record.cpuid) := by
  constructor
  · intro hcpu
    constructor
    · intro hslp
      have h2 : (rcu_prio_scan record.readers 0 false).2 = true := by
        rw [rcu_prio_scan_snd, hslp]; rfl
      refine ⟨?_, rfl, rfl⟩
      simp [linux_synchronize_rcu_cb, hcpu, h2]
    · intro hslp
      have h2 : (rcu_prio_scan record.readers 0 false).2 = false := by
        rw [rcu_prio_scan_snd, hslp]; rfl
      refine ⟨(rcu_prio_scan record.readers 0 false).1, ?_, ?_, ?_, rfl, rfl⟩
      · simp [linux_synchronize_rcu_cb, hcpu, h2]
      · exact (rcu_prio_scan_fst_ge record.readers 0 false).2
      · rcases rcu_prio_scan_fst_mem record.readers 0 false with h | ⟨r, hr, h⟩
        · exact Or.inl h
        · exact Or.inr ⟨r, hr, h⟩
  · intro hcpu
    have heq : linux_synchronize_rcu_cb record td =
        (sched_bind (sched_prio td 0) record.cpuid,
          [SchedAct.prioSet 0, SchedAct.bind record.cpuid]) := by
      simp [linux_synchronize_rcu_cb, hcpu]
    refine ⟨heq, ?_, ?_, ?_⟩ <;>
      rw [heq] <;>
      simp [sched_bind_td_bound, sched_bind_onCpu, sched_bind_td_priority, sched_prio]

/-- Witness for `synchronize_cb_policy` at a concrete record and thread
(same CPU, no sleeping reader). -/
theorem synchronize_cb_policy_witness :
    ((⟨0, [⟨5, 0⟩, ⟨9, 0⟩]⟩ : EpochRec).cpuid = (⟨2, 0, none, 0⟩ : Td).onCpu →
      ((([⟨5, 0⟩, ⟨9, 0⟩] : List ReaderView).any fun r => r.td_inhibitors != 0) = true →
        linux_synchronize_rcu_cb ⟨0, [⟨5, 0⟩, ⟨9, 0⟩]⟩ ⟨2, 0, none, 0⟩ =
          (⟨2, 0, none, 0⟩, [SchedAct.threadUnlock, SchedAct.pause 1, SchedAct.threadLock]) ∧
        lockAfter true [SchedAct.threadUnlock, SchedAct.pause 1] = false ∧
        lockAfter true [SchedAct.threadUnlock, SchedAct.pause 1, SchedAct.threadLock] = true) ∧
      ((([⟨5, 0⟩, ⟨9, 0⟩] : List ReaderView).any fun r => r.td_inhibitors != 0) = false →
        ∃ m, linux_synchronize_rcu_cb ⟨0, [⟨5, 0⟩, ⟨9, 0⟩]⟩ ⟨2, 0, none, 0⟩ =
            (sched_prio ⟨2, 0, none, 0⟩ m,
              [SchedAct.prioSet m, SchedAct.switchVol, SchedAct.threadLock]) ∧
          (∀ r ∈ ([⟨5, 0⟩, ⟨9, 0⟩] : List ReaderView), r.td_priority ≤ m) ∧
          (m = 0 ∨ ∃ r ∈ ([⟨5, 0⟩, ⟨9, 0⟩] : List ReaderView), m = r.td_priority) ∧
          lockAfter true [SchedAct.prioSet m, SchedAct.switchVol] = false ∧
          lockAfter true [SchedAct.prioSet m, SchedAct.switchVol, SchedAct.threadLock] = true)) ∧
    ((⟨0, [⟨5, 0⟩, ⟨9, 0⟩]⟩ : EpochRec).cpuid ≠ (⟨2, 0, none, 0⟩ : Td).onCpu →
      linux_synchronize_rcu_cb ⟨0, [⟨5, 0⟩, ⟨9, 0⟩]⟩ ⟨2, 0, none, 0⟩ =
        (sched_bind (sched_prio ⟨2, 0, none, 0⟩ 0) 0, [SchedAct.prioSet 0, SchedAct.bind 0]) ∧
      (linux_synchronize_rcu_cb ⟨0, [⟨5, 0⟩, ⟨9, 0⟩]⟩ ⟨2, 0, none, 0⟩).1.td_priority = 0 ∧
      (linux_synchronize_rcu_cb ⟨0, [⟨5, 0⟩, ⟨9, 0⟩]⟩ ⟨2, 0, none, 0⟩).1.td_bound = some 0 ∧
      (linux_synchronize_rcu_cb ⟨0, [⟨5, 0⟩, ⟨9, 0⟩]⟩ ⟨2, 0, none, 0⟩).1.onCpu = 0) :=
  synchronize_cb_policy ⟨0, [⟨5, 0⟩, ⟨9, 0⟩]⟩ ⟨2, 0, none, 0⟩

/-- C8: `drmkpi_synchronize_rcu` restores the caller's priority, its
pinned count, and its CPU binding (it ends bound iff it was bound, and to
the same CPU — a bound thread runs on the CPU it is bound to, which is
the hypothesis `hb`).  This holds for every sequence of per-record
callback invocations the epoch primitive performs during the wait. -/
theorem synchronize_rcu_restores_thread_state (ty : Nat) (records : List EpochRec) (td : Td)
    (hty : ty < RCU_TYPE_MAX) (hb : ∀ c, td.td_bound = some c → td.onCpu = c) :
    ∃ td', drmkpi_synchronize_rcu false ty records td = some td' ∧
      td'.td_priority = td.td_priority ∧
      td'.td_pinned = td.td_pinned ∧
      td'.td_bound = td.td_bound := by
  have hty' : ¬ RCU_TYPE_MAX ≤ ty := not_le.mpr hty
  unfold drmkpi_synchronize_rcu
  rw [if_neg hty']
  simp only [Bool.false_eq_true, if_false]
  refine ⟨_, rfl, rfl, rfl, ?_⟩
  cases h : td.td_bound with
  | none =>
    have hsb : sched_is_bound td = false := by simp [sched_is_bound, h]
    simp [sched_prio, hsb, sched_unbind_td_bound]
  | some c =>
    have hsb : sched_is_bound td = true := by simp [sched_is_bound, h]
    have hc := hb c h
    simp [sched_prio, hsb, sched_bind_td_bound, h, hc]

/-- Witness for `synchronize_rcu_restores_thread_state` at a concrete
thread and record list. -/
theorem synchronize_rcu_restores_thread_state_witness :
    ∃ td', drmkpi_synchronize_rcu false 0 [⟨4, [⟨7, 0⟩]⟩] ⟨10, 2, none, 3⟩ = some td' ∧
      td'.td_priority = 10 ∧ td'.td_pinned = 2 ∧ td'.td_bound = none := by
  have h := synchronize_rcu_restores_thread_state 0 [⟨4, [⟨7, 0⟩]⟩] ⟨10, 2, none, 3⟩
    (by norm_num [RCU_TYPE_MAX]) (by intro c hc; cases hc)
  exact h

/-- C3 counterexample: with the skip mode active (`RCU_SKIP() = true`),
`drmkpi_call_rcu` still mutates engine state: it inserts the callback
node into the per-type queue.  The source of `drmkpi_call_rcu` contains
no `RCU_SKIP()` check at all. -/
theorem call_rcu_ignores_skip_counterexample :
    ∃ q', drmkpi_call_rcu true 0 100 5000 qinit = some q' ∧
      q'.cb_head 0 = [⟨100, 5000⟩] ∧ q'.cb_head 0 ≠ qinit.cb_head 0 := by
  refine ⟨_, rfl, ?_, ?_⟩ <;> simp [drmkpi_call_rcu, qinit, fupd]

/-- C3 (amended): with the skip mode active,
`drmkpi_rcu_read_lock`, `drmkpi_rcu_read_unlock` and
`drmkpi_synchronize_rcu` return immediately with the state unchanged;
`drmkpi_call_rcu`, however, performs no skip check and always inserts the
node at the queue tail and schedules the drain task. -/
theorem skip_mode_noop_amended (ty t : Nat) (s : St) (records : List EpochRec) (td : Td)
    (q : QState) (addr : Int) (func : Nat) (skip : Bool) (hty : ty < RCU_TYPE_MAX) :
    drmkpi_rcu_read_lock true ty t s = some s ∧
    drmkpi_rcu_read_unlock true ty t s = some s ∧
    drmkpi_synchronize_rcu true ty records td = some td ∧
    ∃ q', drmkpi_call_rcu skip ty addr func q = some q' ∧
      q'.cb_head ty = q.cb_head ty ++ [⟨addr, func⟩] ∧ q'.taskQueued ty = true := by
  have hty' : ¬ RCU_TYPE_MAX ≤ ty := not_le.mpr hty
  refine ⟨?_, ?_, ?_, ?_⟩
  · simp [drmkpi_rcu_read_lock, hty']
  · simp [drmkpi_rcu_read_unlock, hty']
  · simp [drmkpi_synchronize_rcu, hty']
  · unfold drmkpi_call_rcu
    rw [if_neg hty']
    exact ⟨_, rfl, by simp [fupd], by simp [fupd]⟩

/-- Witness for `skip_mode_noop_amended` at concrete inputs. -/
theorem skip_mode_noop_amended_witness :
    drmkpi_rcu_read_lock true 0 0 initSt = some initSt ∧
    drmkpi_rcu_read_unlock true 0 0 initSt = some initSt ∧
    drmkpi_synchronize_rcu true 0 [] ⟨10, 2, none, 3⟩ = some ⟨10, 2, none, 3⟩ ∧
    ∃ q', drmkpi_call_rcu true 0 100 5000 qinit = some q' ∧
      q'.cb_head 0 = qinit.cb_head 0 ++ [⟨100, 5000⟩] ∧ q'.taskQueued 0 = true :=
  skip_mode_noop_amended 0 0 initSt [] ⟨10, 2, none, 3⟩ qinit 100 5000 true
    (by norm_num [RCU_TYPE_MAX])

/-- C4 counterexample: calling `drmkpi_rcu_read_unlock` with recursion
depth 0 is not detected: no assertion fires (the call succeeds) and the
per-thread depth becomes negative (−1). -/
theorem unlock_underflow_counterexample :
    ∃ s', drmkpi_rcu_read_unlock false 0 0 initSt = some s' ∧
      s'.recurse 0 0 = -1 ∧ s'.recurse 0 0 < 0 := by
  refine ⟨_, rfl, ?_, ?_⟩ <;> norm_num [unlockEff, initSt, fupd2]

/-! ## Preservation of the reader-side invariant -/

theorem stinv_init : StInv initSt := by
  refine ⟨?_, ?_, ?_, ?_, ?_, ?_⟩ <;> intros <;> simp_all [initSt]

theorem stinv_lock {s : St} {t ty : Nat} (hs : StInv s) (hty : ty < RCU_TYPE_MAX) :
    StInv (lockEff s t ty) := by
  obtain ⟨h0, h5, h4, h1, h2, h3⟩ := hs
  have hty01 : ty = 0 ∨ ty = 1 := by
    unfold RCU_TYPE_MAX at hty; omega
  refine ⟨?_, ?_, ?_, ?_, ?_, ?_⟩
  · -- recursion depths stay non-negative
    intro u ty'
    simp only [lockEff_recurse, fupd2]
    split_ifs with hc
    · have := h0 t ty; omega
    · exact h0 u ty'
  · -- out-of-range types stay at depth 0
    intro u ty' hh
    simp only [lockEff_recurse, fupd2]
    split_ifs with hc
    · exfalso
      obtain ⟨rfl, rfl⟩ := hc
      unfold RCU_TYPE_MAX at hh
      omega
    · exact h5 u ty' hh
  · -- td_pinned counts the open sections
    intro u
    simp only [lockEff_pinned, lockEff_recurse, fupd, fupd2]
    by_cases hu : u = t
    · subst hu
      have := h4 u
      rcases hty01 with rfl | rfl <;> simp <;> omega
    · simp [hu]
      exact h4 u
  · -- linked iff depth positive
    intro u ty'
    by_cases hD : s.recurse t ty + 1 = 1
    · have hD0 : s.recurse t ty = 0 := by omega
      simp only [lockEff_recurse, lockEff_registry, if_pos hD, fupd2]
      by_cases hu : u = t
      · subst hu
        by_cases hty' : ty' = ty
        · subst hty'
          rw [if_pos ⟨rfl, rfl⟩]
          constructor
          · intro _
            exact ⟨s.cpu u, by rw [if_pos ⟨rfl, rfl⟩]; simp⟩
          · intro _
            omega
        · rw [if_neg (by simp [hty'])]
          constructor
          · intro hpos
            obtain ⟨c, hc⟩ := (h1 u ty').mp hpos
            exact ⟨c, by rw [if_neg (by simp [hty'])]; exact hc⟩
          · rintro ⟨c, hc⟩
            rw [if_neg (by simp [hty'])] at hc
            exact (h1 u ty').mpr ⟨c, hc⟩
      · have key : ∀ c, (u ∈ if ty' = ty ∧ c = s.cpu t then
            s.registry ty (s.cpu t) ++ [t] else s.registry ty' c) ↔ u ∈ s.registry ty' c := by
          intro c
          split_ifs with hcond
          · obtain ⟨rfl, rfl⟩ := hcond
            simp [hu]
          · exact Iff.rfl
        rw [if_neg (by simp [hu])]
        simp only [key]
        exact h1 u ty'
    · simp only [lockEff_recurse, lockEff_registry, if_neg hD, fupd2]
      by_cases hc : u = t ∧ ty' = ty
      · obtain ⟨rfl, rfl⟩ := hc
        rw [if_pos ⟨rfl, rfl⟩]
        have hpos : 0 < s.recurse u ty' := by have := h0 u ty'; omega
        constructor
        · intro _
          exact (h1 u ty').mp hpos
        · intro _
          omega
      · rw [if_neg hc]
        exact h1 u ty'
  · -- a linked thread is linked on its own CPU
    intro u ty' c hm
    rw [lockEff_cpu]
    rw [lockEff_registry] at hm
    by_cases hD : s.recurse t ty + 1 = 1
    · rw [if_pos hD] at hm
      simp only [fupd2] at hm
      split_ifs at hm with hcond
      · rw [hcond.2]
        rcases List.mem_append.mp hm with hm' | hm'
        · exact h2 u ty (s.cpu t) hm'
        · simp at hm'
          rw [hm']
      · exact h2 u ty' c hm
    · rw [if_neg hD] at hm
      exact h2 u ty' c hm
  · -- registries are duplicate-free per thread
    intro u ty' c
    rw [lockEff_registry]
    by_cases hD : s.recurse t ty + 1 = 1
    · rw [if_pos hD]
      simp only [fupd2]
      split_ifs with hcond
      · rw [List.count_append]
        by_cases hu : u = t
        · have hD0 : s.recurse t ty = 0 := by omega
          have hnot : t ∉ s.registry ty (s.cpu t) := by
            intro hc
            have := (h1 t ty).mpr ⟨_, hc⟩
            omega
          rw [hu, List.count_eq_zero.mpr hnot]
          simp
        · have hz : List.count u [t] = 0 := by simp [hu]
          rw [hz]
          simpa using h3 u ty (s.cpu t)
      · exact h3 u ty' c
    · rw [if_neg hD]
      exact h3 u ty' c

theorem stinv_unlock {s : St} {t ty : Nat} (hs : StInv s) (hty : ty < RCU_TYPE_MAX)
    (hpos : 0 < s.recurse t ty) : StInv (unlockEff s t ty) := by
  obtain ⟨h0, h5, h4, h1, h2, h3⟩ := hs
  have hty01 : ty = 0 ∨ ty = 1 := by
    unfold RCU_TYPE_MAX at hty; omega
  refine ⟨?_, ?_, ?_, ?_, ?_, ?_⟩
  · intro u ty'
    simp only [unlockEff_recurse, fupd2]
    split_ifs with hc
    · omega
    · exact h0 u ty'
  · intro u ty' hh
    simp only [unlockEff_recurse, fupd2]
    split_ifs with hc
    · exfalso
      obtain ⟨rfl, rfl⟩ := hc
      unfold RCU_TYPE_MAX at hh
      omega
    · exact h5 u ty' hh
  · intro u
    simp only [unlockEff_pinned, unlockEff_recurse, fupd, fupd2]
    by_cases hu : u = t
    · subst hu
      have := h4 u
      rcases hty01 with rfl | rfl <;> simp <;> omega
    · simp [hu]
      exact h4 u
  · intro u ty'
    by_cases hD : s.recurse t ty - 1 = 0
    · have hD1 : s.recurse t ty = 1 := by omega
      have htm : t ∈ s.registry ty (s.cpu t) := by
        obtain ⟨c, hc⟩ := (h1 t ty).mp hpos
        rw [h2 t ty c hc] at hc
        exact hc
      simp only [unlockEff_recurse, unlockEff_registry, if_pos hD, fupd2]
      by_cases hu : u = t
      · subst hu
        by_cases hty' : ty' = ty
        · subst hty'
          rw [if_pos ⟨rfl, rfl⟩]
          constructor
          · intro hcon
            omega
          · rintro ⟨c, hc⟩
            exfalso
            by_cases hcc : ty' = ty' ∧ c = s.cpu u
            · rw [if_pos hcc] at hc
              have hcount : (s.registry ty' (s.cpu u)).count u = 1 :=
                le_antisymm (h3 u ty' (s.cpu u)) (List.count_pos_iff_mem.mpr htm)
              have : (List.erase (s.registry ty' (s.cpu u)) u).count u = 0 := by
                rw [List.count_erase_self, hcount]
              exact absurd hc (by
                rw [← List.count_pos_iff_mem] at hc ⊢
                omega)
            · rw [if_neg hcc] at hc
              have := h2 u ty' c hc
              exact hcc ⟨rfl, this⟩
        · rw [if_neg (by simp [hty'])]
          constructor
          · intro hp
            obtain ⟨c, hc⟩ := (h1 u ty').mp hp
            exact ⟨c, by rw [if_neg (by simp [hty'])]; exact hc⟩
          · rintro ⟨c, hc⟩
            rw [if_neg (by simp [hty'])] at hc
            exact (h1 u ty').mpr ⟨c, hc⟩
      · have key : ∀ c, (u ∈ if ty' = ty ∧ c = s.cpu t then
            List.erase (s.registry ty (s.cpu t)) t else s.registry ty' c) ↔
              u ∈ s.registry ty' c := by
          intro c
          split_ifs with hcond
          · obtain ⟨rfl, rfl⟩ := hcond
            exact ⟨fun hc => List.mem_of_mem_erase hc,
              fun hc => List.mem_erase_of_ne hu |>.mpr hc⟩
          · exact Iff.rfl
        rw [if_neg (by simp [hu])]
        simp only [key]
        exact h1 u ty'
    · simp only [unlockEff_recurse, unlockEff_registry, if_neg hD, fupd2]
      by_cases hc : u = t ∧ ty' = ty
      · obtain ⟨rfl, rfl⟩ := hc
        rw [if_pos ⟨rfl, rfl⟩]
        constructor
        · intro _
          exact (h1 u ty').mp hpos
        · intro _
          omega
      · rw [if_neg hc]
        exact h1 u ty'
  · intro u ty' c hm
    rw [unlockEff_cpu]
    rw [unlockEff_registry] at hm
    by_cases hD : s.recurse t ty - 1 = 0
    · rw [if_pos hD] at hm
      simp only [fupd2] at hm
      split_ifs at hm with hcond
      · rw [hcond.2]
        exact h2 u ty (s.cpu t) (List.mem_of_mem_erase hm)
      · exact h2 u ty' c hm
    · rw [if_neg hD] at hm
      exact h2 u ty' c hm
  · intro u ty' c
    rw [unlockEff_registry]
    by_cases hD : s.recurse t ty - 1 = 0
    · rw [if_pos hD]
      simp only [fupd2]
      split_ifs with hcond
      · exact le_trans (List.Sublist.count_le (List.erase_sublist _ _) u) (h3 u ty (s.cpu t))
      · exact h3 u ty' c
    · rw [if_neg hD]
      exact h3 u ty' c

theorem stinv_migrate {s : St} {t c : Nat} (hs : StInv s) (hp : s.pinned t = 0) :
    StInv { s with cpu := fupd s.cpu t c } := by
  obtain ⟨h0, h5, h4, h1, h2, h3⟩ := hs
  have hzero : ∀ ty, s.recurse t ty = 0 := by
    intro ty
    by_cases hty : RCU_TYPE_MAX ≤ ty
    · exact h5 t ty hty
    · have h01 : ty = 0 ∨ ty = 1 := by unfold RCU_TYPE_MAX at hty; omega
      have hsum := h4 t
      have n0 := h0 t 0
      have n1 := h0 t 1
      rcases h01 with rfl | rfl <;> omega
  have hnm : ∀ ty c', t ∉ s.registry ty c' := by
    intro ty c' hmem
    have := (h1 t ty).mpr ⟨c', hmem⟩
    rw [hzero ty] at this
    omega
  refine ⟨h0, h5, h4, h1, ?_, h3⟩
  intro u ty' c' hm
  show c' = fupd s.cpu t c u
  by_cases hu : u = t
  · subst hu
    exact absurd hm (hnm ty' c')
  · rw [fupd_other _ _ hu]
    exact h2 u ty' c' hm

theorem stinv_step {s s' : St} {e : Ev} (hs : StInv s) (h : step s e = some s') :
    StInv s' := by
  cases e with
  | lock t ty =>
    simp only [step, drmkpi_rcu_read_lock] at h
    by_cases hty : RCU_TYPE_MAX ≤ ty
    · rw [if_pos hty] at h
      exact Option.noConfusion h
    · rw [if_neg hty] at h
      simp only [Bool.false_eq_true, if_false] at h
      injection h with h
      subst h
      exact stinv_lock hs (not_le.mp hty)
  | unlock t ty =>
    simp only [step] at h
    split_ifs at h with hpos
    · simp only [drmkpi_rcu_read_unlock] at h
      by_cases hty : RCU_TYPE_MAX ≤ ty
      · rw [if_pos hty] at h
        exact Option.noConfusion h
      · rw [if_neg hty] at h
        simp only [Bool.false_eq_true, if_false] at h
        injection h with h
        subst h
        exact stinv_unlock hs (not_le.mp hty) hpos
  | migrate t c =>
    simp only [step] at h
    split_ifs at h with hp
    · injection h with h
      subst h
      exact stinv_migrate hs hp
  | syncCall w ty snap =>
    simp only [step] at h
    split_ifs at h with hty
    · cases hsy : s.syncing w with
      | none =>
        rw [hsy] at h
        injection h with h
        subst h
        exact ⟨hs.1, hs.2.1, hs.2.2.1, hs.2.2.2.1, hs.2.2.2.2.1, hs.2.2.2.2.2⟩
      | some p =>
        rw [hsy] at h
        exact Option.noConfusion h
  | syncRet w =>
    simp only [step] at h
    cases hsy : s.syncing w with
    | none =>
      rw [hsy] at h
      exact Option.noConfusion h
    | some p =>
      obtain ⟨a, l⟩ := p
      cases l with
      | nil =>
        rw [hsy] at h
        injection h with h
        subst h
        exact ⟨hs.1, hs.2.1, hs.2.2.1, hs.2.2.2.1, hs.2.2.2.2.1, hs.2.2.2.2.2⟩
      | cons x xs =>
        rw [hsy] at h
        exact Option.noConfusion h

theorem stinv_run {es : List Ev} : ∀ {s s' : St}, StInv s → run s es = some s' → StInv s' := by
  induction es with
  | nil =>
    intro s s' hs h
    unfold run at h
    injection h with h
    subst h
    exact hs
  | cons e es ih =>
    intro s s' hs h
    unfold run at h
    cases hstep : step s e with
    | none =>
      rw [hstep] at h
      exact Option.noConfusion h
    | some s1 =>
      rw [hstep] at h
      exact ih (stinv_step hs hstep) h

/-- C7: in every reachable engine state, a thread is linked into a
per-CPU registry sequence for type `ty` iff its recursion depth is
strictly positive; the linkage is into at most one CPU's sequence and at
most once.  Moreover `drmkpi_rcu_read_lock` leaves every registry
unchanged unless it performs the 0→1 transition, and
`drmkpi_rcu_read_unlock` leaves every registry unchanged unless it
performs the 1→0 transition — nested begin/end never double-insert. -/
theorem registry_linkage_invariant (es : List Ev) (s : St) (h : exec es = some s)
    (t ty : Nat) :
    (0 < s.recurse t ty ↔ ∃ c, t ∈ s.registry ty c) ∧
    (∀ c c', t ∈ s.registry ty c → t ∈ s.registry ty c' → c = c') ∧
    (∀ c, (s.registry ty c).count t ≤ 1) ∧
    (0 < s.recurse t ty → (lockEff s t ty).registry = s.registry) ∧
    (1 < s.recurse t ty → (unlockEff s t ty).registry = s.registry) := by
  have hs := stinv_run stinv_init h
  obtain ⟨h0, h5, h4, h1, h2, h3⟩ := hs
  refine ⟨h1 t ty, ?_, fun c => h3 t ty c, ?_, ?_⟩
  · intro c c' hc hc'
    rw [h2 t ty c hc, h2 t ty c' hc']
  · intro hpos
    rw [lockEff_registry, if_neg (by omega)]
  · intro hgt
    rw [unlockEff_registry, if_neg (by omega)]

/-- Witness for `registry_linkage_invariant` on a concrete trace. -/
theorem registry_linkage_invariant_witness :
    (0 < initSt.recurse 0 0 ↔ ∃ c, 0 ∈ initSt.registry 0 c) ∧
    (∀ c c', 0 ∈ initSt.registry 0 c → 0 ∈ initSt.registry 0 c' → c = c') ∧
    (∀ c, (initSt.registry 0 c).count 0 ≤ 1) ∧
    (0 < initSt.recurse 0 0 → (lockEff initSt 0 0).registry = initSt.registry) ∧
    (1 < initSt.recurse 0 0 → (unlockEff initSt 0 0).registry = initSt.registry) :=
  registry_linkage_invariant [] initSt rfl 0 0

/-- C4 (amended): a begin/end imbalance is NOT detected by the engine:
`drmkpi_rcu_read_unlock` at depth 0 triggers no assertion (the only
assertion checks the type bound), decrements the per-thread depth to −1
and leaves the registries unchanged.  Under the legal (balanced) call
sequences of the trace semantics the depth is non-negative in every
reachable state. -/
theorem unlock_underflow_amended (s : St) (t ty : Nat)
    (hty : ty < RCU_TYPE_MAX) (h0 : s.recurse t ty = 0) :
    (∃ s', drmkpi_rcu_read_unlock false ty t s = some s' ∧
      s'.recurse t ty = -1 ∧ s'.registry = s.registry) ∧
    (∀ es s', exec es = some s' → 0 ≤ s'.recurse t ty) := by
  constructor
  · refine ⟨unlockEff s t ty, ?_, ?_, ?_⟩
    · unfold drmkpi_rcu_read_unlock
      rw [if_neg (not_le.mpr hty)]
      simp
    · rw [unlockEff_recurse, fupd2_same, h0]
      rfl
    · rw [unlockEff_registry, if_neg (by rw [h0]; norm_num)]
  · intro es s' h
    exact (stinv_run stinv_init h).1 t ty

/-- Witness for `unlock_underflow_amended` at depth 0 in the initial
state. -/
theorem unlock_underflow_amended_witness :
    (∃ s', drmkpi_rcu_read_unlock false 0 0 initSt = some s' ∧
      s'.recurse 0 0 = -1 ∧ s'.registry = initSt.registry) ∧
    (∀ es s', exec es = some s' → 0 ≤ s'.recurse 0 0) :=
  unlock_underflow_amended initSt 0 0 (by norm_num [RCU_TYPE_MAX]) rfl

/-! ## The grace-period guarantee of the wait -/

theorem run_append (a b : List Ev) (s : St) :
    run s (a ++ b) = (run s a).bind fun s1 => run s1 b := by
  induction a generalizing s with
  | nil => simp [run]
  | cons e a ih =>
    rw [List.cons_append]
    simp only [run]
    cases hstep : step s e with
    | none => simp [hstep]
    | some s1 => simp [hstep, ih]

/-- A reader `t` of an in-flight wait snapshot stays in the snapshot
across every step except the one that ends its critical section (the
unlock performing its 1→0 transition) and the wait's own return. -/
theorem step_syncing_preserve {s s1 : St} {e : Ev} {w ty : Nat} {snap : List Nat} {t : Nat}
    (hstep : step s e = some s1) (hsy : s.syncing w = some (ty, snap)) (htm : t ∈ snap)
    (hnote : e ≠ Ev.syncRet w) (hnend : ¬(e = Ev.unlock t ty ∧ s.recurse t ty = 1)) :
    ∃ snap1, s1.syncing w = some (ty, snap1) ∧ t ∈ snap1 := by
  cases e with
  | lock a b =>
    simp only [step, drmkpi_rcu_read_lock] at hstep
    by_cases hty : RCU_TYPE_MAX ≤ b
    · rw [if_pos hty] at hstep
      exact Option.noConfusion hstep
    · rw [if_neg hty] at hstep
      simp only [Bool.false_eq_true, if_false] at hstep
      injection hstep with hstep
      subst hstep
      exact ⟨snap, hsy, htm⟩
  | unlock a b =>
    simp only [step] at hstep
    split_ifs at hstep with hpos
    simp only [drmkpi_rcu_read_unlock] at hstep
    by_cases hty : RCU_TYPE_MAX ≤ b
    · rw [if_pos hty] at hstep
      exact Option.noConfusion hstep
    · rw [if_neg hty] at hstep
      simp only [Bool.false_eq_true, if_false] at hstep
      injection hstep with hstep
      subst hstep
      rw [unlockEff_syncing]
      by_cases hz : s.recurse a b - 1 = 0
      · rw [if_pos hz]
        by_cases htyb : ty = b
        · have hta : t ≠ a := by
            intro hta
            refine hnend ⟨by rw [hta, htyb], ?_⟩
            rw [hta, htyb]
            omega
          refine ⟨snap.erase a, ?_, (List.mem_erase_of_ne hta).mpr htm⟩
          show (match s.syncing w with
            | some (ty', snap) =>
                if ty' = b then some (ty', snap.erase a) else some (ty', snap)
            | none => none) = some (ty, snap.erase a)
          rw [hsy]
          simp [htyb]
        · refine ⟨snap, ?_, htm⟩
          show (match s.syncing w with
            | some (ty', snap) =>
                if ty' = b then some (ty', snap.erase a) else some (ty', snap)
            | none => none) = some (ty, snap)
          rw [hsy]
          simp [htyb]
      · rw [if_neg hz]
        exact ⟨snap, hsy, htm⟩
  | migrate a c =>
    simp only [step] at hstep
    split_ifs at hstep with hp
    injection hstep with hstep
    subst hstep
    exact ⟨snap, hsy, htm⟩
  | syncCall w2 ty2 snap2 =>
    simp only [step] at hstep
    split_ifs at hstep with hty
    cases hsw : s.syncing w2 with
    | none =>
      rw [hsw] at hstep
      injection hstep with hstep
      subst hstep
      have hww : w ≠ w2 := by
        intro he
        rw [he, hsw] at hsy
        exact Option.noConfusion hsy
      exact ⟨snap, by rw [show ({ s with syncing := fupd s.syncing w2 (some (ty2, snap2)) } :
        St).syncing w = fupd s.syncing w2 (some (ty2, snap2)) w from rfl,
        fupd_other _ _ hww]; exact hsy, htm⟩
    | some p =>
      rw [hsw] at hstep
      exact Option.noConfusion hstep
  | syncRet w2 =>
    have hww : w ≠ w2 := by
      intro he
      rw [he] at hnote
      exact hnote rfl
    simp only [step] at hstep
    cases hsw : s.syncing w2 with
    | none =>
      rw [hsw] at hstep
      exact Option.noConfusion hstep
    | some p =>
      obtain ⟨a2, l2⟩ := p
      cases l2 with
      | nil =>
        rw [hsw] at hstep
        injection hstep with hstep
        subst hstep
        exact ⟨snap, by rw [show ({ s with syncing := fupd s.syncing w2 none } : St).syncing w =
          fupd s.syncing w2 none w from rfl, fupd_other _ _ hww]; exact hsy, htm⟩
      | cons x xs =>
        rw [hsw] at hstep
        exact Option.noConfusion hstep

/-- Over any segment of a run that contains no return of waiter `w`'s
wait, a reader `t` of `w`'s snapshot either is still in the snapshot at
the end, or the segment contains the unlock performing `t`'s 1→0
transition for the waited type. -/
theorem sync_wait_unlock_occurs (mid : List Ev) :
    ∀ (s s'' : St) (w ty : Nat) (snap : List Nat) (t : Nat),
      run s mid = some s'' → Ev.syncRet w ∉ mid →
      s.syncing w = some (ty, snap) → t ∈ snap →
      (∃ snap', s''.syncing w = some (ty, snap') ∧ t ∈ snap') ∨
      (∃ mid1 mid2 sm, mid = mid1 ++ Ev.unlock t ty :: mid2 ∧
        run s mid1 = some sm ∧ sm.recurse t ty = 1) := by
  induction mid with
  | nil =>
    intro s s'' w ty snap t hrun _ hsy htm
    unfold run at hrun
    injection hrun with hrun
    subst hrun
    exact Or.inl ⟨snap, hsy, htm⟩
  | cons e rest ih =>
    intro s s'' w ty snap t hrun hnret hsy htm
    unfold run at hrun
    cases hstep : step s e with
    | none =>
      rw [hstep] at hrun
      exact Option.noConfusion hrun
    | some s1 =>
      rw [hstep] at hrun
      by_cases hend : e = Ev.unlock t ty ∧ s.recurse t ty = 1
      · refine Or.inr ⟨[], rest, s, ?_, rfl, hend.2⟩
        rw [hend.1]
        rfl
      · have hnote : e ≠ Ev.syncRet w := by
          intro he
          exact hnret (he ▸ List.mem_cons_self e rest)
        obtain ⟨snap1, hsy1, htm1⟩ :=
          step_syncing_preserve hstep hsy htm hnote hend
        have hnret1 : Ev.syncRet w ∉ rest := fun hc => hnret (List.mem_cons_of_mem _ hc)
        rcases ih s1 s'' w ty snap1 t hrun hnret1 hsy1 htm1 with hl |
          ⟨mid1, mid2, sm, heq, hrunm, hsm⟩
        · exact Or.inl hl
        · refine Or.inr ⟨e :: mid1, mid2, sm, by simp [heq], ?_, hsm⟩
          simp only [run]
          rw [hstep]
          exact hrunm

/-- C1: if `drmkpi_synchronize_rcu(ty)` is entered by `w` (snapshotting
the readers with an active `ty`-critical section) and later returns, then
every reader with a `ty`-critical section active at the call has ended it
— performed the unlock of its 1→0 transition — strictly before the
return. -/
theorem synchronize_waits_for_active_readers
    (es1 mid es2 : List Ev) (w ty : Nat) (snap : List Nat) (s0 sfin : St)
    (hrun : exec (es1 ++ Ev.syncCall w ty snap :: mid ++ Ev.syncRet w :: es2) = some sfin)
    (hpre : exec es1 = some s0)
    (hnret : Ev.syncRet w ∉ mid)
    (hsnap : ∀ u, u ∈ snap ↔ 0 < s0.recurse u ty)
    (t : Nat) (hact : 0 < s0.recurse t ty) :
    ∃ mid1 mid2 sm, mid = mid1 ++ Ev.unlock t ty :: mid2 ∧
      exec (es1 ++ Ev.syncCall w ty snap :: mid1) = some sm ∧ sm.recurse t ty = 1 := by
  unfold exec at hrun hpre ⊢
  rw [run_append (es1 ++ Ev.syncCall w ty snap :: mid) (Ev.syncRet w :: es2)] at hrun
  rw [run_append es1 (Ev.syncCall w ty snap :: mid)] at hrun
  rw [hpre] at hrun
  simp only [Option.some_bind] at hrun
  rw [Option.bind_eq_some] at hrun
  obtain ⟨s3, hcallmid, hret⟩ := hrun
  simp only [run] at hcallmid
  cases hA : step s0 (Ev.syncCall w ty snap) with
  | none =>
    rw [hA] at hcallmid
    exact Option.noConfusion hcallmid
  | some s1 =>
    rw [hA] at hcallmid
    have hty : ¬ RCU_TYPE_MAX ≤ ty := by
      intro hcon
      simp only [step, if_pos hcon] at hA
      exact Option.noConfusion hA
    have hs1 : s1.syncing w = some (ty, snap) := by
      simp only [step, if_neg hty] at hA
      cases hsw : s0.syncing w with
      | none =>
        rw [hsw] at hA
        injection hA with hA
        subst hA
        exact fupd_same _ _ _
      | some p =>
        rw [hsw] at hA
        exact Option.noConfusion hA
    have htm : t ∈ snap := (hsnap t).mpr hact
    rcases sync_wait_unlock_occurs mid s1 s3 w ty snap t hcallmid hnret hs1 htm with
      ⟨snap', hsy2, htm2⟩ | ⟨mid1, mid2, sm, heq, hrunm, hsm⟩
    · exfalso
      simp only [run] at hret
      have hnone : step s3 (Ev.syncRet w) = none := by
        simp only [step, hsy2]
        cases snap' with
        | nil => cases htm2
        | cons x xs => rfl
      rw [hnone] at hret
      exact Option.noConfusion hret
    · refine ⟨mid1, mid2, sm, heq, ?_, hsm⟩
      rw [run_append es1 (Ev.syncCall w ty snap :: mid1), hpre]
      simp only [Option.some_bind]
      simp only [run]
      rw [hA]
      exact hrunm

/-- Witness for `synchronize_waits_for_active_readers` on the concrete
trace lock–call–unlock–return. -/
theorem synchronize_waits_for_active_readers_witness :
    ∃ mid1 mid2 sm, [Ev.unlock 0 0] = mid1 ++ Ev.unlock 0 0 :: mid2 ∧
      exec ([Ev.lock 0 0] ++ Ev.syncCall 1 0 [0] :: mid1) = some sm ∧
      sm.recurse 0 0 = 1 :=
  synchronize_waits_for_active_readers [Ev.lock 0 0] [Ev.unlock 0 0] [] 1 0 [0] _ _
    rfl rfl (by decide)
    (by
      intro u
      by_cases hu : u = 0 <;>
        simp [hu, lockEff_recurse, initSt, fupd2])
    0 (by decide)

/-! ## FIFO callback dispatch and the barrier -/

theorem qrun_append (a b : List QEv) (s : QState) :
    qrun s (a ++ b) = (qrun s a).bind fun s1 => qrun s1 b := by
  induction a generalizing s with
  | nil => simp [qrun]
  | cons e a ih =>
    rw [List.cons_append]
    simp only [qrun]
    cases hstep : qstep s e with
    | none => simp [hstep]
    | some s1 => simp [hstep, ih]

theorem enqList_append (ty : Nat) (a b : List QEv) :
    enqList ty (a ++ b) = enqList ty a ++ enqList ty b := by
  induction a with
  | nil => rfl
  | cons e a ih =>
    cases e with
    | enq ty2 n =>
      simp only [List.cons_append, enqList]
      split_ifs <;> simp [ih]
    | taskStart ty2 => simpa [enqList] using ih
    | taskEnd ty2 => simpa [enqList] using ih
    | barrierCall b2 ty2 => simpa [enqList] using ih
    | barrierRet b2 ty2 => simpa [enqList] using ih

theorem qstep_sig {s s' : QState} {e : QEv} (ty : Nat) (h : qstep s e = some s') :
    qsig ty s' = qsig ty s ++ linux_rcu_cleaner_dispatch (enqList ty [e]) := by
  cases e with
  | enq ty2 n =>
    simp only [qstep, drmkpi_call_rcu] at h
    split_ifs at h with hty2
    injection h with h
    subst h
    by_cases hty : ty2 = ty
    · subst hty
      simp [qsig, runningList, enqList, fupd, cleaner_dispatch_eq_map]
    · simp [qsig, runningList, enqList, fupd, hty, Ne.symm hty, cleaner_dispatch_eq_map]
  | taskStart ty2 =>
    simp only [qstep] at h
    split_ifs at h with hcond
    injection h with h
    subst h
    by_cases hty : ty2 = ty
    · subst hty
      simp [qsig, runningList, enqList, fupd, hcond.2, cleaner_dispatch_eq_map]
    · simp [qsig, runningList, enqList, fupd, hty, Ne.symm hty, cleaner_dispatch_eq_map]
  | taskEnd ty2 =>
    simp only [qstep] at h
    cases hr : s.taskRunning ty2 with
    | none => rw [hr] at h; exact Option.noConfusion h
    | some batch =>
      rw [hr] at h
      injection h with h
      subst h
      by_cases hty : ty2 = ty
      · subst hty
        simp [qsig, runningList, enqList, fupd, hr, cleaner_dispatch_eq_map]
      · simp [qsig, runningList, enqList, fupd, hty, Ne.symm hty, cleaner_dispatch_eq_map]
  | barrierCall b2 ty2 =>
    simp only [qstep] at h
    split_ifs at h with hty2
    injection h with h
    subst h
    simp [enqList, linux_rcu_cleaner_dispatch]
  | barrierRet b2 ty2 =>
    simp only [qstep] at h
    split_ifs at h with hcond
    injection h with h
    subst h
    simp [enqList, linux_rcu_cleaner_dispatch]

theorem qrun_sig (es : List QEv) : ∀ {s s' : QState} (ty : Nat),
    qrun s es = some s' →
    qsig ty s' = qsig ty s ++ linux_rcu_cleaner_dispatch (enqList ty es) := by
  induction es with
  | nil =>
    intro s s' ty h
    unfold qrun at h
    injection h with h
    subst h
    simp [enqList, linux_rcu_cleaner_dispatch]
  | cons e es ih =>
    intro s s' ty h
    unfold qrun at h
    cases hstep : qstep s e with
    | none =>
      rw [hstep] at h
      exact Option.noConfusion h
    | some s1 =>
      rw [hstep] at h
      rw [ih ty h, qstep_sig ty hstep]
      have hsplit : enqList ty (e :: es) = enqList ty [e] ++ enqList ty es := by
        show enqList ty ([e] ++ es) = _
        exact enqList_append ty [e] es
      rw [hsplit, cleaner_dispatch_append, List.append_assoc]

theorem qstep_queued {s s' : QState} {e : QEv}
    (hinv : ∀ ty, s.cb_head ty ≠ [] → s.taskQueued ty = true)
    (h : qstep s e = some s') :
    ∀ ty, s'.cb_head ty ≠ [] → s'.taskQueued ty = true := by
  cases e with
  | enq ty2 n =>
    simp only [qstep, drmkpi_call_rcu] at h
    split_ifs at h with hty2
    injection h with h
    subst h
    intro ty
    by_cases hty : ty = ty2
    · subst hty
      simp [fupd]
    · simpa [fupd, hty] using hinv ty
  | taskStart ty2 =>
    simp only [qstep] at h
    split_ifs at h with hcond
    injection h with h
    subst h
    intro ty
    by_cases hty : ty = ty2
    · subst hty
      simp [fupd]
    · simpa [fupd, hty] using hinv ty
  | taskEnd ty2 =>
    simp only [qstep] at h
    cases hr : s.taskRunning ty2 with
    | none => rw [hr] at h; exact Option.noConfusion h
    | some batch =>
      rw [hr] at h
      injection h with h
      subst h
      exact hinv
  | barrierCall b2 ty2 =>
    simp only [qstep] at h
    split_ifs at h with hty2
    injection h with h
    subst h
    exact hinv
  | barrierRet b2 ty2 =>
    simp only [qstep] at h
    split_ifs at h with hcond
    injection h with h
    subst h
    exact hinv

theorem qrun_queued (es : List QEv) : ∀ {s s' : QState},
    (∀ ty, s.cb_head ty ≠ [] → s.taskQueued ty = true) →
    qrun s es = some s' →
    ∀ ty, s'.cb_head ty ≠ [] → s'.taskQueued ty = true := by
  induction es with
  | nil =>
    intro s s' hinv h
    unfold qrun at h
    injection h with h
    subst h
    exact hinv
  | cons e es ih =>
    intro s s' hinv h
    unfold qrun at h
    cases hstep : qstep s e with
    | none =>
      rw [hstep] at h
      exact Option.noConfusion h
    | some s1 =>
      rw [hstep] at h
      exact ih (qstep_queued hinv hstep) h

/-- C6: callbacks enqueued with `drmkpi_call_rcu` to a type are
dispatched in enqueue order: after any trace, the dispatch log followed
by the in-flight batch and the still-queued nodes equals the dispatch
image of the full enqueue order — in particular the executed actions are
a FIFO prefix of the enqueue order. -/
theorem callbacks_fifo_order (es : List QEv) (s : QState) (ty : Nat)
    (h : qexec es = some s) :
    qsig ty s = linux_rcu_cleaner_dispatch (enqList ty es) ∧
    ∃ rest, linux_rcu_cleaner_dispatch (enqList ty es) = s.exec_log ty ++ rest := by
  have h1 := qrun_sig es ty h
  have h0 : qsig ty qinit = [] := rfl
  rw [h0, List.nil_append] at h1
  refine ⟨h1, ⟨linux_rcu_cleaner_dispatch (runningList s ty) ++
    linux_rcu_cleaner_dispatch (s.cb_head ty), ?_⟩⟩
  rw [← h1]
  unfold qsig
  rw [List.append_assoc]

/-- Witness for `callbacks_fifo_order` on a concrete trace. -/
theorem callbacks_fifo_order_witness :
    ∃ s, qexec [QEv.enq 0 ⟨100, 0⟩] = some s ∧
      (qsig 0 s = linux_rcu_cleaner_dispatch (enqList 0 [QEv.enq 0 ⟨100, 0⟩]) ∧
       ∃ rest, linux_rcu_cleaner_dispatch (enqList 0 [QEv.enq 0 ⟨100, 0⟩]) =
         s.exec_log 0 ++ rest) :=
  ⟨_, rfl, callbacks_fifo_order [QEv.enq 0 ⟨100, 0⟩] _ 0 rfl⟩

/-- C2: every callback enqueued (to type `ty`) before a
`drmkpi_rcu_barrier(ty)` call has been dispatched by the time the barrier
returns: the barrier's `taskqueue_drain` returns only with no cleaner
task pending or running, at which point the queue is empty and the
FIFO-order invariant places every enqueued node's action in the dispatch
log. -/
theorem barrier_executes_prior_callbacks
    (es1 es2 es3 : List QEv) (b ty : Nat) (n : Node) (sfin : QState)
    (hrun : qexec (es1 ++ QEv.enq ty n :: es2 ++ QEv.barrierCall b ty :: es3 ++
      [QEv.barrierRet b ty]) = some sfin) :
    dispatchOne n ∈ sfin.exec_log ty := by
  unfold qexec at hrun
  rw [qrun_append ((es1 ++ QEv.enq ty n :: es2) ++ QEv.barrierCall b ty :: es3)
    [QEv.barrierRet b ty]] at hrun
  rw [Option.bind_eq_some] at hrun
  obtain ⟨smid, hfront, hlast⟩ := hrun
  -- the barrier return step leaves the state unchanged and certifies the
  -- drain guard
  simp only [qrun, qstep] at hlast
  split_ifs at hlast with hcond
  · injection hlast with hlast
    subst hlast
    -- pending and running are clear, so the queue is empty
    have hqinv : ∀ ty', qinit.cb_head ty' ≠ [] → qinit.taskQueued ty' = true := by
      intro ty' hc
      exact absurd rfl hc
    have hcb : smid.cb_head ty = [] := by
      by_contra hc
      rw [qrun_queued _ hqinv hfront ty hc] at hcond
      exact Bool.noConfusion hcond.1
    have hsig := qrun_sig _ ty hfront
    have h0 : qsig ty qinit = [] := rfl
    rw [h0, List.nil_append] at hsig
    have hmem : n ∈ enqList ty ((es1 ++ QEv.enq ty n :: es2) ++
        QEv.barrierCall b ty :: es3) := by
      rw [enqList_append, enqList_append]
      simp [enqList]
    have hsig2 : qsig ty smid = smid.exec_log ty := by
      unfold qsig runningList
      rw [hcb, hcond.2]
      simp [linux_rcu_cleaner_dispatch]
    rw [hsig2] at hsig
    rw [hsig]
    exact mem_cleaner_dispatch hmem

/-- Witness for `barrier_executes_prior_callbacks` on the concrete trace
enqueue–drain–barrier. -/
theorem barrier_executes_prior_callbacks_witness :
    ∃ s, qexec ([] ++ QEv.enq 0 ⟨100, 0⟩ :: [QEv.taskStart 0, QEv.taskEnd 0] ++
      QEv.barrierCall 5 0 :: [] ++ [QEv.barrierRet 5 0]) = some s ∧
      dispatchOne ⟨100, 0⟩ ∈ s.exec_log 0 :=
  ⟨_, rfl, barrier_executes_prior_callbacks [] [QEv.taskStart 0, QEv.taskEnd 0] [] 5 0
    ⟨100, 0⟩ _ rfl⟩

end Drmkpi
